import Mathlib

/-!
Verification development for the ctxctx query-resolution and ignore-arbitration
engine (files `ctxctx/ignore.py`, `ctxctx/search.py`, `ctxctx/cli.py`).

Strings are modelled as lists of characters (`Str`); the embedding assumes a
POSIX platform (path separator is the slash, `os.path.normcase` is the
identity) and ASCII text for case folding, matching the environment the
program documents and tests.  Python helper functions (`str.split`,
`str.strip`, `int`, `fnmatch.fnmatch`, `os.path.normpath`, `os.path.relpath`,
`os.path.basename`, `os.path.join`) are translated below; the filesystem is a
finite tree of named files and directories over which `os.walk` is replayed.
-/

namespace Ctxctx

/-- Strings as character lists, so that every operation reduces in the kernel. -/
abbrev Str := List Char

/-- Coerce a Lean string literal to the character-list representation. -/
def str (s : String) : Str := s.toList

/-- Whitespace characters removed by Python `str.strip()` (ASCII subset). -/
def isPySpace (c : Char) : Bool :=
  c = ' ' || c = '\t' || c = '\n' || c = '\x0d' || c = '\x0b' || c = '\x0c'

/-- Python `str.strip()`: drop leading and trailing whitespace. -/
def pyStrip (s : Str) : Str :=
  ((s.dropWhile isPySpace).reverse.dropWhile isPySpace).reverse

/-- Python `str.split(sep)` for a one-character separator: keeps empty
fields, always returns at least one field. -/
def splitOnChar (sep : Char) : Str → List Str
  | [] => [[]]
  | c :: rest =>
    let r := splitOnChar sep rest
    if c = sep then [] :: r
    else
      match r with
      | h :: t => (c :: h) :: t
      | [] => [[c]]

/-- Python `str.split(sep, 1)`: the part before the first separator and,
when a separator occurs, the untouched remainder after it. -/
def splitFirstOn (sep : Char) : Str → Str × Option Str
  | [] => ([], none)
  | c :: rest =>
    if c = sep then ([], some rest)
    else
      let p := splitFirstOn sep rest
      (c :: p.1, p.2)

/-- Digit value of an ASCII decimal digit. -/
def digitVal (c : Char) : Option Nat :=
  if '0' ≤ c ∧ c ≤ '9' then some (c.toNat - '0'.toNat) else none

/-- Digits of a Python integer literal after the first digit: single
underscores are allowed between digits. -/
def pyDigitsAux : Nat → Str → Option Nat
  | acc, [] => some acc
  | acc, '_' :: c :: rest =>
    match digitVal c with
    | some d => pyDigitsAux (acc * 10 + d) rest
    | none => none
  | _, ['_'] => none
  | acc, c :: rest =>
    match digitVal c with
    | some d => pyDigitsAux (acc * 10 + d) rest
    | none => none

/-- Unsigned decimal literal: at least one digit, underscores between digits. -/
def pyUnsigned (s : Str) : Option Nat :=
  match s with
  | c :: rest =>
    match digitVal c with
    | some d => pyDigitsAux d rest
    | none => none
  | [] => none

/-- Python `int(s)` on decimal text: strips whitespace, allows one sign.
Returns `none` where Python raises `ValueError`. -/
def pyInt (s : Str) : Option Int :=
  match pyStrip s with
  | '+' :: r => (pyUnsigned r).map Int.ofNat
  | '-' :: r => (pyUnsigned r).map (fun n => -(Int.ofNat n))
  | r => (pyUnsigned r).map Int.ofNat

/-- Python `needle in hay` on strings: substring containment. -/
def containsSub (hay needle : Str) : Bool :=
  hay.tails.any (fun t => needle.isPrefixOf t)

/-- Python `str.lower()` (ASCII subset). -/
def toLowerStr (s : Str) : Str := s.map Char.toLower

/-- Character-class membership for `fnmatch` bracket expressions: a hyphen
between two characters denotes a code-point range, elsewhere it is literal. -/
def classMatch : Str → Char → Bool
  | lo :: '-' :: hi :: rest, c =>
    (lo.toNat ≤ c.toNat ∧ c.toNat ≤ hi.toNat) || classMatch rest c
  | x :: rest, c => x = c || classMatch rest c
  | [], _ => false

/-- Scan for the closing bracket of an `fnmatch` class; returns the content
before it and the remainder after it. -/
def scanToClose : Str → Option (Str × Str)
  | [] => none
  | c :: r =>
    if c = ']' then some ([], r)
    else (scanToClose r).map (fun p => (c :: p.1, p.2))

/-- Parse an `fnmatch` bracket expression from the text following a `[`,
per CPython `fnmatch.translate`: optional leading `!` negates, a `]`
immediately after is literal content, an unclosed class makes the `[`
literal (signalled by `none`). -/
def parseClass (ps : Str) : Option (Bool × Str × Str) :=
  let (neg, ps1) :=
    match ps with
    | '!' :: r => (true, r)
    | _ => (false, ps)
  match ps1 with
  | ']' :: r =>
    match scanToClose r with
    | some (content, rest) => some (neg, ']' :: content, rest)
    | none => none
  | _ =>
    match scanToClose ps1 with
    | some (content, rest) => some (neg, content, rest)
    | none => none

/-- One step of the glob matcher, fuelled so that it is structurally
recursive; the fuel is always sufficient because every step consumes at
least one character of the pattern or of the candidate. -/
def globMatchFuel : Nat → Str → Str → Bool
  | 0, _, _ => false
  | _ + 1, [], s => s.isEmpty
  | fuel + 1, p :: ps, s =>
    if p = '*' then
      globMatchFuel fuel ps s ||
        (match s with
         | [] => false
         | _ :: s2 => globMatchFuel fuel ('*' :: ps) s2)
    else if p = '?' then
      match s with
      | [] => false
      | _ :: s2 => globMatchFuel fuel ps s2
    else if p = '[' then
      match parseClass ps with
      | some (neg, content, rest) =>
        (match s with
         | [] => false
         | c :: s2 => (neg ≠ classMatch content c) && globMatchFuel fuel rest s2)
      | none =>
        match s with
        | [] => false
        | c :: s2 => (c = '[') && globMatchFuel fuel ps s2
    else
      match s with
      | [] => false
      | c :: s2 => (p = c) && globMatchFuel fuel ps s2

/-- `fnmatch.fnmatch(name, pattern)` on POSIX (where `normcase` is the
identity): anchored shell-style wildcard match. -/
def fnmatchB (name pat : Str) : Bool :=
  globMatchFuel (pat.length + name.length + 1) pat name

/-- Python `os.path.join(a, b)` (posixpath) for a single pair. -/
def pathJoin (a b : Str) : Str :=
  if b.head? = some '/' then b
  else if a = [] ∨ a.getLast? = some '/' then a ++ b
  else a ++ '/' :: b

/-- `posixpath.normpath`: collapse separators, drop single dots, resolve
double dots where possible. -/
def normpath (p : Str) : Str :=
  if p = [] then ['.']
  else
    let initialSlashes : Nat :=
      if p.head? = some '/' then
        if (str "//").isPrefixOf p ∧ ¬ (str "///").isPrefixOf p then 2 else 1
      else 0
    let comps := splitOnChar '/' p
    let newComps := comps.foldl
      (fun acc comp =>
        if comp = [] ∨ comp = ['.'] then acc
        else if comp ≠ str ".." ∨ (initialSlashes = 0 ∧ acc = []) ∨
            (acc ≠ [] ∧ acc.getLast? = some (str "..")) then
          acc ++ [comp]
        else if acc ≠ [] then acc.dropLast
        else acc)
      []
    let joined := List.replicate initialSlashes '/' ++
      List.intercalate (str "/") newComps
    if joined = [] then ['.'] else joined

/-- `posixpath.basename`: everything after the last separator. -/
def basename (p : Str) : Str :=
  ((splitOnChar '/' p).getLast?).getD []

/-- Python `str.rstrip(os.sep)`: drop every trailing separator. -/
def rstripSlash (p : Str) : Str :=
  (p.reverse.dropWhile (fun c => c = '/')).reverse

/-- Normalised non-empty path components, as produced by
`[x for x in abspath(p).split(sep) if x]` for an absolute input. -/
def absComps (p : Str) : List Str :=
  (splitOnChar '/' (normpath p)).filter (fun c => c ≠ [])

/-- Length of the common prefix of two component lists
(`os.path.commonprefix`). -/
def commonPrefixLen : List Str → List Str → Nat
  | a :: as, b :: bs => if a = b then 1 + commonPrefixLen as bs else 0
  | _, _ => 0

/-- `posixpath.relpath(path, start)` for absolute inputs.  Returns `none`
exactly where Python raises `ValueError` (an empty path); this is the
"path cannot be expressed relative to the root" failure that
`ignore.py` catches. -/
def relpath (path start : Str) : Option Str :=
  if path = [] then none
  else
    let sl := absComps start
    let pl := absComps path
    let i := commonPrefixLen sl pl
    let relList := List.replicate (sl.length - i) (str "..") ++ pl.drop i
    if relList = [] then some ['.']
    else some (List.intercalate (str "/") relList)

/-- `os.path.relpath` at a call site without a `try` block: the inputs there
are always non-empty, so the default is never used. -/
def relpathGet (path start : Str) : Str :=
  (relpath path start).getD ['.']

/-! ## ctxctx/ignore.py -/

/-- State of `IgnoreManager` after `init_ignore_set`: the union of configured
and file-loaded explicit patterns, the substring patterns, and the
force-include patterns passed by the caller.  The Python explicit set is an
unordered `set`; it is modelled as a list, queried only through `any`. -/
structure IgnoreManager where
  rootPath : Str
  explicitIgnoreSet : List Str
  substringIgnorePatterns : List Str
  forceIncludePatterns : List Str

/-- `IgnoreManager._load_patterns_from_file`, applied to the lines of the
file (`none` when the file does not exist, which contributes no patterns):
strip each line, skip blank lines and lines starting with a hash, strip one
leading separator. -/
def loadPatternsFromFile (contents : Option (List Str)) : List Str :=
  match contents with
  | none => []
  | some lines =>
    lines.foldl
      (fun patterns rawLine =>
        let line := pyStrip rawLine
        if line = [] ∨ line.head? = some '#' then patterns
        else
          let line2 := if line.head? = some '/' then line.drop 1 else line
          patterns ++ [line2])
      []

/-- `IgnoreManager._is_explicitly_force_included`. -/
def isExplicitlyForceIncluded (m : IgnoreManager) (fullPath : Str) : Bool :=
  match relpath fullPath m.rootPath with
  | none => false
  | some relP =>
    let normRelPath := normpath relP
    let baseName := basename fullPath
    let relPathParts := splitOnChar '/' normRelPath
    m.forceIncludePatterns.any (fun pattern =>
      let normPattern := normpath pattern
      normPattern = normRelPath ||
      fnmatchB normRelPath normPattern ||
      fnmatchB baseName normPattern ||
      relPathParts.any (fun part => fnmatchB part normPattern))

/-- `IgnoreManager.is_ignored`. -/
def isIgnored (m : IgnoreManager) (fullPath : Str) : Bool :=
  if isExplicitlyForceIncluded m fullPath then false
  else
    match relpath fullPath m.rootPath with
    | none => true
    | some relP =>
      if relP = ['.'] then false
      else
        let baseName := basename fullPath
        let relPathParts := splitOnChar '/' relP
        if m.explicitIgnoreSet.any (fun p =>
            let normP := normpath p
            normP = relP || normP = baseName ||
            fnmatchB relP normP || fnmatchB baseName normP ||
            relPathParts.any (fun part => fnmatchB part normP)) then
          true
        else if m.substringIgnorePatterns.any
            (fun pattern => containsSub (toLowerStr relP) (toLowerStr pattern)) then
          true
        else false

/-! ## ctxctx/search.py -/

/-- `search.FORCE_INCLUDE_PREFIX`. -/
def forceIncludeToken : Str := str "force:"

/-- `search._parse_line_ranges`: the loop keeps each colon-separated segment
that splits into exactly two comma parts, both parseable as integers,
positive and ordered; every other segment hits `continue`. -/
def parseSegment (seg : Str) : Option (Int × Int) :=
  match splitOnChar ',' seg with
  | [startS, endS] =>
    match pyInt startS, pyInt endS with
    | some start, some stop =>
      if start ≤ 0 ∨ stop ≤ 0 ∨ start > stop then none else some (start, stop)
    | _, _ => none
  | _ => none

/-- `search._parse_line_ranges` on the whole suffix string. -/
def parseLineRanges (rangesStr : Str) : List (Int × Int) :=
  if rangesStr = [] then []
  else (splitOnChar ':' rangesStr).filterMap parseSegment

/-- Result of the query-decomposition prelude of `find_matches`
(search.py lines 61 to 85). -/
structure ParsedQuery where
  isForce : Bool
  base : Str
  ranges : List (Int × Int)
deriving DecidableEq, Repr

/-- Query decomposition inside `find_matches`: strip the force token, split
once on the first colon, parse the suffix as line ranges, and fall back to
the whole remainder (colons included) when no segment parses. -/
def parseQuery (query : Str) : ParsedQuery :=
  let isForce := forceIncludeToken.isPrefixOf query
  let q := if isForce then query.drop forceIncludeToken.length else query
  match splitFirstOn ':' q with
  | (base, none) => ⟨isForce, base, []⟩
  | (base, some suffixPart) =>
    let parsed := parseLineRanges suffixPart
    if parsed ≠ [] then ⟨isForce, base, parsed⟩
    else ⟨isForce, q, []⟩

/-- Force-include pattern registration in `cli.main` (cli.py lines 109 to
115): for each query carrying the force token, the token is stripped and
everything from the first colon on is dropped. -/
def cliForcePatterns (queries : List Str) : List Str :=
  queries.filterMap (fun q =>
    if forceIncludeToken.isPrefixOf q then
      some (splitFirstOn ':' (q.drop forceIncludeToken.length)).1
    else none)

/-! ### Filesystem model and os.walk -/

mutual
/-- A filesystem entry: a file or a directory with ordered children. -/
inductive Entry where
  | file : Str → Entry
  | dir : Str → EntryList → Entry

/-- Ordered children of a directory, as a mutual inductive so that every
traversal below is structurally recursive and kernel-reducible. -/
inductive EntryList where
  | nil : EntryList
  | cons : Entry → EntryList → EntryList
end

/-- Names of the plain files among the children, in order (the `filenames`
component of an `os.walk` triple). -/
def fileNamesOf : EntryList → List Str
  | .nil => []
  | .cons (.file n) rest => n :: fileNamesOf rest
  | .cons (.dir _ _) rest => fileNamesOf rest

/-- First child with the given name. -/
def findEntry (nm : Str) : EntryList → Option Entry
  | .nil => none
  | .cons e rest =>
    match e with
    | .file n => if n = nm then some e else findEntry nm rest
    | .dir n _ => if n = nm then some e else findEntry nm rest

/-- Resolution result for an absolute path: a directory with its children,
or a plain file. -/
inductive Node where
  | dirNode : EntryList → Node
  | fileNode : Node

/-- Resolve normalised path components against the tree rooted at `/`.
Backs `os.path.exists`, `os.path.isfile`, `os.path.isdir` and the start of
every `os.walk`. -/
def lookupNode (es : EntryList) : List Str → Option Node
  | [] => some (.dirNode es)
  | c :: rest =>
    match findEntry c es with
    | some (.file _) => if rest = [] then some .fileNode else none
    | some (.dir _ ch) => lookupNode ch rest
    | none => none

mutual
/-- `os.walk` below a directory already yielded: the (dirpath, filenames)
pairs of one child entry, top-down. -/
def walkEntry (dirPath : Str) : Entry → List (Str × List Str)
  | .file _ => []
  | .dir n ch =>
    (pathJoin dirPath n, fileNamesOf ch) :: walkEntryList (pathJoin dirPath n) ch

/-- `os.walk` pairs of all children subtrees, in order. -/
def walkEntryList (dirPath : Str) : EntryList → List (Str × List Str)
  | .nil => []
  | .cons e rest => walkEntry dirPath e ++ walkEntryList dirPath rest
end

/-- Full `os.walk(top)` for a directory with children `ch`: the top pair
followed by the subtree pairs. -/
def walkFrom (top : Str) (ch : EntryList) : List (Str × List Str) :=
  (top, fileNamesOf ch) :: walkEntryList top ch

/-- A raw or consolidated match: an absolute path with its line ranges. -/
structure RawMatch where
  path : Str
  lineRanges : List (Int × Int)
deriving DecidableEq, Repr

/-- `dirpath[len(root):].count(os.sep)`: the traversal depth computation of
`find_matches`. -/
def walkDepth (root dirPath : Str) : Nat :=
  (dirPath.drop root.length).count '/'

/-- Parameters threaded through the `find_matches` traversal. -/
structure SearchParams where
  root : Str
  base : Str
  ranges : List (Int × Int)
  maxDepth : Nat

/-- The directory-match test of `find_matches` (search.py lines 132 to 141)
for a child directory named `dirname` of `dirPath`. -/
def isDirMatch (P : SearchParams) (dirPath dirname : Str) : Bool :=
  let fullPathDir := pathJoin dirPath dirname
  let relPathDir := relpathGet fullPathDir P.root
  rstripSlash relPathDir = rstripSlash P.base ||
  dirname = rstripSlash P.base ||
  fnmatchB dirname P.base ||
  fnmatchB relPathDir P.base

/-- The file-match test of `find_matches` (search.py lines 171 to 178). -/
def isFileMatch (P : SearchParams) (dirPath filename : Str) : Bool :=
  let fullPathFile := pathJoin dirPath filename
  let relPathFile := relpathGet fullPathFile P.root
  normpath P.base = normpath relPathFile ||
  normpath P.base = normpath filename ||
  fnmatchB filename P.base ||
  fnmatchB relPathFile P.base

/-- Expansion of a matched directory (search.py lines 148 to 161): a fresh
`os.walk` from the matched directory, skipping the files of any dirpath
whose total depth reaches the limit.  `curDepth` is the depth of the parent
dirpath where the match was found. -/
def dirExpansion (P : SearchParams) (curDepth : Nat) (matchedDir : Str)
    (ch : EntryList) : List RawMatch :=
  (walkFrom matchedDir ch).foldr
    (fun pr acc =>
      let total := curDepth + 1 + walkDepth matchedDir pr.1
      (if total ≥ P.maxDepth then []
       else pr.2.map (fun f => ⟨pathJoin pr.1 f, []⟩)) ++ acc)
    []

/-- The per-dirpath body of the main `find_matches` loop, minus the
recursion: directory-match expansions for matched children in order, then
file matches.  When the parsed ranges are empty the two append branches of
the source coincide, so a single append carrying `P.ranges` is used. -/
def processDirBody (P : SearchParams) (dirPath : Str) (depth : Nat)
    (ch : EntryList) : List RawMatch :=
  let expansions := expansionsOf ch
  let fileMatches := (fileNamesOf ch).foldr
    (fun f acc =>
      (if isFileMatch P dirPath f then [⟨pathJoin dirPath f, P.ranges⟩] else []) ++ acc)
    []
  expansions ++ fileMatches
where
  /-- Scan the children in order, expanding each matched directory. -/
  expansionsOf : EntryList → List RawMatch
    | .nil => []
    | .cons (.file _) rest => expansionsOf rest
    | .cons (.dir n c) rest =>
      (if isDirMatch P dirPath n then dirExpansion P depth (pathJoin dirPath n) c
       else []) ++ expansionsOf rest

mutual
/-- Recursive descent of the main `os.walk(root)` loop into one child entry
that was not pruned out of `dirnames` by a directory match: replay the loop
body at the child dirpath (with its depth guard) and then descend. -/
def searchEntry (P : SearchParams) (parent : Str) : Entry → List RawMatch
  | .file _ => []
  | .dir n ch =>
    let dirPath := pathJoin parent n
    let depth := walkDepth P.root dirPath
    if depth ≥ P.maxDepth ∧ dirPath ≠ P.root then []
    else processDirBody P dirPath depth ch ++ searchList P dirPath ch

/-- Descent into the children that survived `dirnames.remove`: a matched
directory is pruned from further traversal, every other directory is
walked. -/
def searchList (P : SearchParams) (dirPath : Str) : EntryList → List RawMatch
  | .nil => []
  | .cons e rest =>
    (match e with
     | .dir n _ => if isDirMatch P dirPath n then [] else searchEntry P dirPath e
     | .file _ => []) ++ searchList P dirPath rest
end

/-- The whole relative-path traversal of `find_matches` (search.py lines 117
to 189): the loop body at the root dirpath (never pruned, depth 0) followed
by the descent. -/
def traverseRoot (P : SearchParams) (fs : EntryList) : List RawMatch :=
  match lookupNode fs (absComps P.root) with
  | some (.dirNode ch) =>
    let depth := walkDepth P.root P.root
    if depth ≥ P.maxDepth ∧ P.root ≠ P.root then []
    else processDirBody P P.root depth ch ++ searchList P P.root ch
  | _ => []

/-- The absolute-path branch of `find_matches` (search.py lines 88 to 111):
an existing absolute file is emitted with the parsed ranges, an absolute
directory is walked with the plain depth guard, anything else contributes
nothing. -/
def absoluteMatches (fs : EntryList) (base : Str) (ranges : List (Int × Int))
    (maxDepth : Nat) : List RawMatch :=
  if base.head? = some '/' then
    match lookupNode fs (absComps base) with
    | some .fileNode => [⟨base, ranges⟩]
    | some (.dirNode ch) =>
      (walkFrom base ch).foldr
        (fun pr acc =>
          (if walkDepth base pr.1 ≥ maxDepth then []
           else pr.2.map (fun f => ⟨pathJoin pr.1 f, []⟩)) ++ acc)
        []
    | none => []
  else []

/-! ### Consolidation -/

/-- Lexicographic strict order on line ranges: Python tuple comparison. -/
def rangeLt (a b : Int × Int) : Bool :=
  a.1 < b.1 || (a.1 = b.1 && a.2 < b.2)

/-- Ordered duplicate-skipping insertion. -/
def insertRange (r : Int × Int) : List (Int × Int) → List (Int × Int)
  | [] => [r]
  | x :: xs =>
    if rangeLt r x then r :: x :: xs
    else if r = x then x :: xs
    else x :: insertRange r xs

/-- `sorted(set(...))` on line-range tuples: the ascending list of the
distinct pairs.  Used by both copies of the merge code (search.py lines 218
to 219 and cli.py lines 214 to 219). -/
def sortDedupRanges (l : List (Int × Int)) : List (Int × Int) :=
  l.foldl (fun acc r => insertRange r acc) []

/-- One step of the path-keyed consolidation dictionaries of `find_matches`
and `cli.main`: first occurrence of a path stores its ranges as given,
later occurrences merge by deduplicated ascending sort. -/
def consolidateStep (st : List RawMatch) (m : RawMatch) : List RawMatch :=
  if st.any (fun x => x.path = m.path) then
    st.map (fun x =>
      if x.path = m.path then ⟨x.path, sortDedupRanges (x.lineRanges ++ m.lineRanges)⟩
      else x)
  else st ++ [m]

/-- Python string comparison: lexicographic by code point. -/
def strLt : Str → Str → Bool
  | [], [] => false
  | [], _ :: _ => true
  | _ :: _, [] => false
  | a :: as, b :: bs =>
    if a.toNat < b.toNat then true
    else if a.toNat = b.toNat then strLt as bs
    else false

/-- Stable insertion for `sorted(..., key=lambda x: x["path"])`. -/
def insertByPath (m : RawMatch) : List RawMatch → List RawMatch
  | [] => [m]
  | x :: xs =>
    if strLt m.path x.path then m :: x :: xs else x :: insertByPath m xs

/-- `sorted(list(unique_matches.values()), key=path)`. -/
def sortByPath (l : List RawMatch) : List RawMatch :=
  l.foldl (fun acc m => insertByPath m acc) []

/-- `search.find_matches`: query decomposition, absolute branch, root
traversal, ignore filtering, per-query consolidation, and the final sort by
path. -/
def findMatches (fs : EntryList) (query : Str) (root : Str)
    (isIgnoredF : Str → Bool) (maxDepth : Nat) : List RawMatch :=
  let pq := parseQuery query
  let rawAbs := absoluteMatches fs pq.base pq.ranges maxDepth
  let P : SearchParams := ⟨root, pq.base, pq.ranges, maxDepth⟩
  let rawRel := traverseRoot P fs
  let filtered := (rawAbs ++ rawRel).filter (fun m => ¬ isIgnoredF m.path)
  sortByPath (filtered.foldl consolidateStep [])

/-- One query of the consolidation loop of `cli.main` (cli.py lines 172 to
229): a query with no matches is skipped (`continue`), a query whose match
count exceeds the cap aborts the run (`TooManyMatchesError` followed by
`sys.exit`, modelled as `none`), and otherwise every match is folded into
the path-keyed dictionary. -/
def cliFoldStep (cap : Nat) (st : Option (List RawMatch))
    (ms : List RawMatch) : Option (List RawMatch) :=
  match st with
  | none => none
  | some s =>
    if ms = [] then some s
    else if ms.length > cap then none
    else some (ms.foldl consolidateStep s)

/-- The whole consolidation loop of `cli.main` over the per-query match
lists of a run. -/
def consolidateQueryResults (cap : Nat) (results : List (List RawMatch)) :
    Option (List RawMatch) :=
  results.foldl (cliFoldStep cap) (some [])

/-- Ranges recorded for a path in a consolidation state. -/
def lookupRanges (st : List RawMatch) (p : Str) : Option (List (Int × Int)) :=
  (st.find? (fun m => m.path = p)).map RawMatch.lineRanges

/-- Ranges recorded for a path in a whole-run consolidation result. -/
def lookupResult (o : Option (List RawMatch)) (p : Str) :
    Option (List (Int × Int)) :=
  o.bind (fun st => lookupRanges st p)

/-- Effect of one more contribution on the ranges recorded for a path:
the first contribution is stored verbatim, later ones merge by
deduplicated ascending sort. -/
def mergeOne (o : Option (List (Int × Int))) (r : List (Int × Int)) :
    Option (List (Int × Int)) :=
  match o with
  | none => some r
  | some v => some (sortDedupRanges (v ++ r))

/-- The range lists contributed for a path by a run of matches, in order. -/
def contribs (p : Str) (ms : List RawMatch) : List (List (Int × Int)) :=
  (ms.filter (fun m => m.path = p)).map RawMatch.lineRanges

/-- Written from the specification wording for segment validation: a
segment is valid when it has the form start,end with both parts parseable
as integers, both positive, and start at most end; a valid segment yields
that pair, an invalid one is dropped.  Compared below with the
implementation of `_parse_line_ranges`. -/
def specSegment (seg : Str) : Option (Int × Int) :=
  match splitOnChar ',' seg with
  | [startS, endS] =>
    match pyInt startS, pyInt endS with
    | some start, some stop =>
      if 0 < start ∧ 0 < stop ∧ start ≤ stop then some (start, stop) else none
    | _, _ => none
  | _ => none

/-- Concrete tree for the depth-limit scenario of the specification:
the root `/r` contains `top.txt`, `a/file.txt` and `a/b/file.txt`. -/
def depthTree : EntryList :=
  .cons (.dir (str "r")
    (.cons (.file (str "top.txt"))
      (.cons (.dir (str "a")
        (.cons (.file (str "file.txt"))
          (.cons (.dir (str "b")
            (.cons (.file (str "file.txt")) .nil)) .nil))) .nil))) .nil

/-- Concrete tree with two plain files at the root `/r`. -/
def flatTree : EntryList :=
  .cons (.dir (str "r")
    (.cons (.file (str "a.py"))
      (.cons (.file (str "file.py")) .nil))) .nil

/-! ### Order lemmas for line ranges -/

theorem rangeLt_iff {a b : Int × Int} :
    rangeLt a b = true ↔ a.1 < b.1 ∨ (a.1 = b.1 ∧ a.2 < b.2) := by
  simp [rangeLt]

theorem rangeLt_asymm {a b : Int × Int} (h : rangeLt a b = true) :
    rangeLt b a = false := by
  by_contra hc
  have hb : rangeLt b a = true := by revert hc; cases rangeLt b a <;> simp
  rw [rangeLt_iff] at h hb
  omega

theorem rangeLt_total {a b : Int × Int} (h : rangeLt a b = false)
    (hne : a ≠ b) : rangeLt b a = true := by
  have h' : ¬ (a.1 < b.1 ∨ (a.1 = b.1 ∧ a.2 < b.2)) := by
    rw [← rangeLt_iff, h]; simp
  rw [Ne, Prod.ext_iff] at hne
  rw [rangeLt_iff]
  omega

theorem rangeLt_trans {a b c : Int × Int} (h1 : rangeLt a b = true)
    (h2 : rangeLt b c = true) : rangeLt a c = true := by
  rw [rangeLt_iff] at h1 h2 ⊢
  omega

theorem rangeLt_irrefl {a : Int × Int} : rangeLt a a = false := by
  have : ¬ rangeLt a a = true := by rw [rangeLt_iff]; omega
  revert this; cases rangeLt a a <;> simp

theorem mem_insertRange {r x : Int × Int} {l : List (Int × Int)} :
    x ∈ insertRange r l ↔ x = r ∨ x ∈ l := by
  induction l with
  | nil => simp [insertRange]
  | cons y ys ih =>
    unfold insertRange
    split_ifs with h1 h2
    · simp only [List.mem_cons]
    · subst h2; simp only [List.mem_cons]; tauto
    · simp only [List.mem_cons, ih]
      tauto

theorem pairwise_insertRange {r : Int × Int} {l : List (Int × Int)}
    (hl : l.Pairwise (fun a b => rangeLt a b = true)) :
    (insertRange r l).Pairwise (fun a b => rangeLt a b = true) := by
  induction l with
  | nil => simp [insertRange]
  | cons y ys ih =>
    rcases List.pairwise_cons.mp hl with ⟨hy, hys⟩
    unfold insertRange
    split_ifs with h1 h2
    · refine List.pairwise_cons.mpr ⟨?_, hl⟩
      intro z hz
      rcases List.mem_cons.mp hz with rfl | hz'
      · exact h1
      · exact rangeLt_trans h1 (hy z hz')
    · exact hl
    · refine List.pairwise_cons.mpr ⟨?_, ih hys⟩
      intro z hz
      rcases mem_insertRange.mp hz with rfl | hz'
      · exact rangeLt_total (by revert h1; cases rangeLt z y <;> simp) h2
      · exact hy z hz'

theorem mem_foldl_insertRange :
    ∀ (l acc : List (Int × Int)) (x : Int × Int),
      (x ∈ l.foldl (fun acc r => insertRange r acc) acc ↔ x ∈ acc ∨ x ∈ l) := by
  intro l
  induction l with
  | nil => simp
  | cons r rest ih =>
    intro acc x
    simp only [List.foldl_cons, ih, mem_insertRange, List.mem_cons]
    tauto

theorem pairwise_foldl_insertRange :
    ∀ (l acc : List (Int × Int)),
      acc.Pairwise (fun a b => rangeLt a b = true) →
      (l.foldl (fun acc r => insertRange r acc) acc).Pairwise
        (fun a b => rangeLt a b = true) := by
  intro l
  induction l with
  | nil => intro acc h; simpa using h
  | cons r rest ih =>
    intro acc h
    exact ih _ (pairwise_insertRange h)

theorem mem_sortDedupRanges {l : List (Int × Int)} {x : Int × Int} :
    x ∈ sortDedupRanges l ↔ x ∈ l := by
  simp [sortDedupRanges, mem_foldl_insertRange]

theorem pairwise_sortDedupRanges {l : List (Int × Int)} :
    (sortDedupRanges l).Pairwise (fun a b => rangeLt a b = true) :=
  pairwise_foldl_insertRange l [] List.Pairwise.nil

theorem eq_of_pairwise_rangeLt :
    ∀ {l₁ l₂ : List (Int × Int)},
      l₁.Pairwise (fun a b => rangeLt a b = true) →
      l₂.Pairwise (fun a b => rangeLt a b = true) →
      (∀ x, x ∈ l₁ ↔ x ∈ l₂) → l₁ = l₂ := by
  intro l₁
  induction l₁ with
  | nil =>
    intro l₂ _ _ hm
    cases l₂ with
    | nil => rfl
    | cons b bs => have := (hm b).mpr (by simp); simp at this
  | cons a as ih =>
    intro l₂ h₁ h₂ hm
    cases l₂ with
    | nil => have := (hm a).mp (by simp); simp at this
    | cons b bs =>
      have hab : a = b := by
        by_contra hne
        have ha : a ∈ b :: bs := (hm a).mp (by simp)
        have hb : b ∈ a :: as := (hm b).mpr (by simp)
        rcases List.mem_cons.mp ha with h | ha'
        · exact hne h
        rcases List.mem_cons.mp hb with h | hb'
        · exact hne h.symm
        have hba : rangeLt b a = true := (List.pairwise_cons.mp h₂).1 a ha'
        have hab2 : rangeLt a b = true := (List.pairwise_cons.mp h₁).1 b hb'
        simp [rangeLt_asymm hab2] at hba
      subst hab
      have tails : ∀ x, x ∈ as ↔ x ∈ bs := by
        intro x
        constructor
        · intro hx
          have hx2 : x ∈ a :: bs := (hm x).mp (List.mem_cons_of_mem _ hx)
          rcases List.mem_cons.mp hx2 with rfl | h
          · have := (List.pairwise_cons.mp h₁).1 _ hx
            simp [rangeLt_irrefl] at this
          · exact h
        · intro hx
          have hx2 : x ∈ a :: as := (hm x).mpr (List.mem_cons_of_mem _ hx)
          rcases List.mem_cons.mp hx2 with rfl | h
          · have := (List.pairwise_cons.mp h₂).1 _ hx
            simp [rangeLt_irrefl] at this
          · exact h
      rw [ih (List.pairwise_cons.mp h₁).2 (List.pairwise_cons.mp h₂).2 tails]

theorem sortDedupRanges_congr {l₁ l₂ : List (Int × Int)}
    (h : ∀ x, x ∈ l₁ ↔ x ∈ l₂) :
    sortDedupRanges l₁ = sortDedupRanges l₂ :=
  eq_of_pairwise_rangeLt pairwise_sortDedupRanges pairwise_sortDedupRanges
    (fun x => by rw [mem_sortDedupRanges, mem_sortDedupRanges]; exact h x)

theorem sortDedupRanges_absorb (a b : List (Int × Int)) :
    sortDedupRanges (sortDedupRanges a ++ b) = sortDedupRanges (a ++ b) :=
  sortDedupRanges_congr (fun x => by
    simp [List.mem_append, mem_sortDedupRanges])

/-! ### Consolidation characterization -/

theorem lookupRanges_cons {x : RawMatch} {st : List RawMatch} {p : Str} :
    lookupRanges (x :: st) p =
      if x.path = p then some x.lineRanges else lookupRanges st p := by
  by_cases h : x.path = p <;> simp [lookupRanges, List.find?_cons, h]

theorem any_path_eq_isSome (st : List RawMatch) (q : Str) :
    st.any (fun x => x.path = q) = (lookupRanges st q).isSome := by
  induction st with
  | nil => simp [lookupRanges]
  | cons x rest ih =>
    by_cases h : x.path = q <;> simp [lookupRanges_cons, h, ih]

theorem lookupRanges_map_other (st : List RawMatch) (q p : Str)
    (f : List (Int × Int) → List (Int × Int)) (hne : q ≠ p) :
    lookupRanges (st.map (fun x =>
      if x.path = q then ⟨x.path, f x.lineRanges⟩ else x)) p =
    lookupRanges st p := by
  induction st with
  | nil => simp [lookupRanges]
  | cons x rest ih =>
    by_cases hx : x.path = q
    · have hxp : x.path ≠ p := by rw [hx]; exact hne
      simp only [List.map_cons]
      rw [if_pos hx, lookupRanges_cons, lookupRanges_cons, if_neg hxp, if_neg hxp]
      exact ih
    · simp only [List.map_cons]
      rw [if_neg hx, lookupRanges_cons, lookupRanges_cons]
      by_cases hxp : x.path = p
      · rw [if_pos hxp, if_pos hxp]
      · rw [if_neg hxp, if_neg hxp]; exact ih

theorem lookupRanges_map_self (st : List RawMatch) (q : Str)
    (f : List (Int × Int) → List (Int × Int)) :
    lookupRanges (st.map (fun x =>
      if x.path = q then ⟨x.path, f x.lineRanges⟩ else x)) q =
    (lookupRanges st q).map f := by
  induction st with
  | nil => simp [lookupRanges]
  | cons x rest ih =>
    by_cases hx : x.path = q
    · simp only [List.map_cons]
      rw [if_pos hx, lookupRanges_cons, lookupRanges_cons, if_pos hx, if_pos hx]
      rfl
    · simp only [List.map_cons]
      rw [if_neg hx, lookupRanges_cons, lookupRanges_cons, if_neg hx, if_neg hx]
      exact ih

theorem lookupRanges_append_single {st : List RawMatch} {m : RawMatch} {p : Str} :
    lookupRanges (st ++ [m]) p =
      match lookupRanges st p with
      | some v => some v
      | none => if m.path = p then some m.lineRanges else none := by
  induction st with
  | nil => simp [lookupRanges_cons, lookupRanges]
  | cons x rest ih =>
    rw [List.cons_append, lookupRanges_cons, lookupRanges_cons]
    by_cases hx : x.path = p
    · rw [if_pos hx, if_pos hx]
    · rw [if_neg hx, if_neg hx]; exact ih

theorem lookupRanges_consolidateStep (st : List RawMatch) (m : RawMatch)
    (p : Str) :
    lookupRanges (consolidateStep st m) p =
      if m.path = p then mergeOne (lookupRanges st p) m.lineRanges
      else lookupRanges st p := by
  unfold consolidateStep
  rw [any_path_eq_isSome]
  by_cases hs : (lookupRanges st m.path).isSome
  · rw [if_pos hs]
    by_cases hp : m.path = p
    · subst hp
      rw [if_pos rfl,
        lookupRanges_map_self st m.path (fun v => sortDedupRanges (v ++ m.lineRanges))]
      rcases ho : lookupRanges st m.path with _ | v
      · rw [ho] at hs; simp at hs
      · simp [mergeOne]
    · rw [if_neg hp,
        lookupRanges_map_other st m.path p
          (fun v => sortDedupRanges (v ++ m.lineRanges)) (fun h => hp h)]
  · rw [if_neg hs]
    rcases ho : lookupRanges st m.path with _ | v
    · rw [lookupRanges_append_single]
      by_cases hp : m.path = p
      · subst hp
        rw [ho, if_pos rfl, if_pos rfl]
        rfl
      · rw [if_neg hp, if_neg hp]
        rcases lookupRanges st p with _ | w <;> rfl
    · rw [ho] at hs; simp at hs

theorem contribs_cons (p : Str) (m : RawMatch) (ms : List RawMatch) :
    contribs p (m :: ms) =
      if m.path = p then m.lineRanges :: contribs p ms else contribs p ms := by
  by_cases h : m.path = p <;> simp [contribs, List.filter_cons, h]

theorem lookupRanges_foldl_step :
    ∀ (ms : List RawMatch) (st : List RawMatch) (p : Str),
      lookupRanges (ms.foldl consolidateStep st) p =
        (contribs p ms).foldl mergeOne (lookupRanges st p) := by
  intro ms
  induction ms with
  | nil => intro st p; simp [contribs]
  | cons m rest ih =>
    intro st p
    rw [List.foldl_cons, ih, contribs_cons]
    by_cases h : m.path = p
    · rw [if_pos h, List.foldl_cons, lookupRanges_consolidateStep, if_pos h]
    · rw [if_neg h, lookupRanges_consolidateStep, if_neg h]

theorem foldl_mergeOne_some :
    ∀ (cs : List (List (Int × Int))) (v : List (Int × Int)),
      cs.foldl mergeOne (some v) =
        some (if cs = [] then v else sortDedupRanges (v ++ cs.flatten)) := by
  intro cs
  induction cs with
  | nil => intro v; simp
  | cons c rest ih =>
    intro v
    rw [List.foldl_cons]
    show rest.foldl mergeOne (some (sortDedupRanges (v ++ c))) = _
    rw [ih]
    rcases Decidable.em (rest = []) with rfl | hne
    · simp
    · rw [if_neg hne, if_neg (by simp)]
      rw [sortDedupRanges_absorb, List.flatten_cons, List.append_assoc]

theorem foldl_mergeOne_none (cs : List (List (Int × Int))) :
    cs.foldl mergeOne none =
      match cs with
      | [] => none
      | [r] => some r
      | r :: rs => some (sortDedupRanges (r ++ rs.flatten)) := by
  cases cs with
  | nil => rfl
  | cons r rs =>
    rw [List.foldl_cons]
    show rs.foldl mergeOne (some r) = _
    rw [foldl_mergeOne_some]
    cases rs with
    | nil => simp
    | cons s t => simp

theorem perm_flatten {α : Type} {l₁ l₂ : List (List α)} (h : l₁.Perm l₂) :
    l₁.flatten.Perm l₂.flatten := by
  induction h with
  | nil => exact List.Perm.refl _
  | cons x _ ih =>
    rw [List.flatten_cons, List.flatten_cons]
    exact ih.append_left x
  | swap x y l =>
    rw [List.flatten_cons, List.flatten_cons, List.flatten_cons,
      List.flatten_cons, ← List.append_assoc, ← List.append_assoc]
    exact List.perm_append_comm.append_right l.flatten
  | trans _ _ ih1 ih2 => exact ih1.trans ih2

theorem foldl_mergeOne_none_perm {cs₁ cs₂ : List (List (Int × Int))}
    (h : cs₁.Perm cs₂) :
    cs₁.foldl mergeOne none = cs₂.foldl mergeOne none := by
  have hlen := h.length_eq
  cases cs₁ with
  | nil =>
    cases cs₂ with
    | nil => rfl
    | cons b bs => simp at hlen
  | cons a as =>
    cases as with
    | nil => rw [List.perm_singleton.mp h.symm]
    | cons a2 as2 =>
      cases cs₂ with
      | nil => simp at hlen
      | cons b bs =>
        cases bs with
        | nil => simp at hlen
        | cons b2 bs2 =>
          rw [foldl_mergeOne_none, foldl_mergeOne_none]
          show some (sortDedupRanges (a ++ (a2 :: as2).flatten)) =
            some (sortDedupRanges (b ++ (b2 :: bs2).flatten))
          exact congrArg some
            (sortDedupRanges_congr (fun x => (perm_flatten h).mem_iff))

theorem consolidate_fold_none (cap : Nat) (ls : List (List RawMatch)) :
    ls.foldl (cliFoldStep cap) none = none := by
  induction ls with
  | nil => rfl
  | cons ms rest ih => exact ih

theorem consolidate_fold_some (cap : Nat) :
    ∀ (ls : List (List RawMatch)) (s : List RawMatch),
      ls.foldl (cliFoldStep cap) (some s) =
        if ls.any (fun ms => ms.length > cap) then none
        else some (ls.flatten.foldl consolidateStep s) := by
  intro ls
  induction ls with
  | nil => intro s; simp
  | cons ms rest ih =>
    intro s
    rw [List.foldl_cons]
    rcases Decidable.em (ms = []) with rfl | hne
    · show rest.foldl (cliFoldStep cap) (some s) = _
      rw [ih]
      simp
    · rcases Decidable.em (ms.length > cap) with hcap | hcap
      · have hstep : cliFoldStep cap (some s) ms = none := by
          show (if ms = [] then some s
            else if ms.length > cap then none
            else some (ms.foldl consolidateStep s)) = none
          rw [if_neg hne, if_pos hcap]
        rw [hstep, consolidate_fold_none]
        have hany : (ms :: rest).any (fun ms => ms.length > cap) = true := by
          simp only [List.any_cons, Bool.or_eq_true, decide_eq_true_eq]
          left; exact hcap
        rw [hany]
        simp
      · have hstep : cliFoldStep cap (some s) ms =
            some (ms.foldl consolidateStep s) := by
          show (if ms = [] then some s
            else if ms.length > cap then none
            else some (ms.foldl consolidateStep s)) =
            some (ms.foldl consolidateStep s)
          rw [if_neg hne, if_neg hcap]
        rw [hstep, ih]
        have hany : (ms :: rest).any (fun ms => ms.length > cap) =
            rest.any (fun ms => ms.length > cap) := by
          simp only [List.any_cons]
          have hd : decide (ms.length > cap) = false := by
            simp only [decide_eq_false_iff_not]; exact hcap
          rw [hd, Bool.false_or]
        rw [hany, List.flatten_cons, List.foldl_append]

theorem consolidateQueryResults_eq (cap : Nat) (ls : List (List RawMatch)) :
    consolidateQueryResults cap ls =
      if ls.any (fun ms => ms.length > cap) then none
      else some (ls.flatten.foldl consolidateStep []) := by
  unfold consolidateQueryResults
  exact consolidate_fold_some cap ls []

theorem perm_any_eq {α : Type} {l₁ l₂ : List α} (h : l₁.Perm l₂)
    (f : α → Bool) : l₁.any f = l₂.any f := by
  cases hv : l₂.any f
  · rw [List.any_eq_false] at hv ⊢
    intro x hx
    exact hv x (h.mem_iff.mp hx)
  · rw [List.any_eq_true] at hv ⊢
    rcases hv with ⟨x, hx, hfx⟩
    exact ⟨x, h.mem_iff.mpr hx, hfx⟩

theorem consolidateQueryResults_perm (cap : Nat)
    {ls₁ ls₂ : List (List RawMatch)} (h : ls₁.Perm ls₂) :
    (consolidateQueryResults cap ls₁).isSome =
        (consolidateQueryResults cap ls₂).isSome ∧
      ∀ p, lookupResult (consolidateQueryResults cap ls₁) p =
        lookupResult (consolidateQueryResults cap ls₂) p := by
  rw [consolidateQueryResults_eq, consolidateQueryResults_eq]
  rw [perm_any_eq h (fun ms => ms.length > cap)]
  cases hb : ls₂.any (fun ms => ms.length > cap)
  · rw [if_neg (by simp), if_neg (by simp)]
    refine ⟨rfl, ?_⟩
    intro p
    show lookupRanges (ls₁.flatten.foldl consolidateStep []) p =
      lookupRanges (ls₂.flatten.foldl consolidateStep []) p
    rw [lookupRanges_foldl_step, lookupRanges_foldl_step]
    have hc : (contribs p ls₁.flatten).Perm (contribs p ls₂.flatten) := by
      unfold contribs
      exact ((perm_flatten h).filter (fun m => m.path = p)).map RawMatch.lineRanges
    show (contribs p ls₁.flatten).foldl mergeOne none =
      (contribs p ls₂.flatten).foldl mergeOne none
    rw [foldl_mergeOne_none_perm hc]
  · rw [if_pos (by simp), if_pos (by simp)]
    exact ⟨rfl, fun p => rfl⟩

/-! ### Order lemmas for paths -/

theorem strLt_asymm : ∀ {s t : Str}, strLt s t = true → strLt t s = false := by
  intro s
  induction s with
  | nil =>
    intro t h
    cases t with
    | nil => simp [strLt] at h
    | cons b bs => simp [strLt]
  | cons a as ih =>
    intro t h
    cases t with
    | nil => simp [strLt] at h
    | cons b bs =>
      unfold strLt at h ⊢
      split_ifs at h ⊢ with h1 h2 h3 h4 <;> try rfl
      all_goals first
        | (exact absurd h1 (by omega))
        | (exact absurd h3 (by omega))
        | (exact ih h)
        | omega
        | simp at h

theorem mem_insertByPath {m x : RawMatch} :
    ∀ {l : List RawMatch}, x ∈ insertByPath m l ↔ x = m ∨ x ∈ l := by
  intro l
  induction l with
  | nil => simp [insertByPath]
  | cons y ys ih =>
    unfold insertByPath
    split_ifs with h1
    · simp only [List.mem_cons]
    · simp only [List.mem_cons, ih]; tauto

theorem strLt_trans : ∀ {s t u : Str},
    strLt s t = true → strLt t u = true → strLt s u = true := by
  intro s
  induction s with
  | nil =>
    intro t u h1 h2
    cases t with
    | nil => simp [strLt] at h1
    | cons b bs =>
      cases u with
      | nil => simp [strLt] at h2
      | cons c cs => simp [strLt]
  | cons a as ih =>
    intro t u h1 h2
    cases t with
    | nil => simp [strLt] at h1
    | cons b bs =>
      cases u with
      | nil => simp [strLt] at h2
      | cons c cs =>
        unfold strLt at h1 h2 ⊢
        split_ifs at h1 h2 ⊢ with h3 h4 h5 h6 h7 h8 <;>
          first
            | rfl
            | omega
            | (exact ih h1 h2)
            | simp_all

theorem pairwise_insertByPath {m : RawMatch} :
    ∀ {l : List RawMatch},
      l.Pairwise (fun a b => strLt b.path a.path = false) →
      (insertByPath m l).Pairwise (fun a b => strLt b.path a.path = false) := by
  intro l
  induction l with
  | nil => intro _; simp [insertByPath]
  | cons x xs ih =>
    intro hl
    rcases List.pairwise_cons.mp hl with ⟨hx, hxs⟩
    unfold insertByPath
    split_ifs with h1
    · refine List.pairwise_cons.mpr ⟨?_, hl⟩
      intro z hz
      rcases List.mem_cons.mp hz with rfl | hz'
      · exact strLt_asymm h1
      · by_contra hc
        have hzt : strLt z.path m.path = true := by
          revert hc; cases strLt z.path m.path <;> simp
        have := strLt_trans hzt h1
        rw [hx z hz'] at this
        exact Bool.false_ne_true this
    · refine List.pairwise_cons.mpr ⟨?_, ih hxs⟩
      intro z hz
      rcases mem_insertByPath.mp hz with rfl | hz'
      · revert h1; cases strLt z.path x.path <;> simp
      · exact hx z hz'

theorem pairwise_sortByPath (l : List RawMatch) :
    (sortByPath l).Pairwise (fun a b => strLt b.path a.path = false) := by
  suffices h : ∀ (l acc : List RawMatch),
      acc.Pairwise (fun a b => strLt b.path a.path = false) →
      (l.foldl (fun acc m => insertByPath m acc) acc).Pairwise
        (fun a b => strLt b.path a.path = false) by
    exact h l [] List.Pairwise.nil
  intro l
  induction l with
  | nil => intro acc h; simpa using h
  | cons m rest ih => intro acc h; exact ih _ (pairwise_insertByPath h)

theorem findMatches_sorted (fs : EntryList) (q root : Str)
    (ign : Str → Bool) (d : Nat) :
    (findMatches fs q root ign d).Pairwise
      (fun a b => strLt b.path a.path = false) :=
  pairwise_sortByPath _

/-! ### Query-parsing lemmas -/

theorem parseSegment_eq_spec (seg : Str) : parseSegment seg = specSegment seg := by
  unfold parseSegment specSegment
  rcases hsp : splitOnChar ',' seg with _ | ⟨a, rest⟩
  · rfl
  rcases rest with _ | ⟨b, rest2⟩
  · rfl
  rcases rest2 with _ | ⟨c, rest3⟩
  · show (match pyInt a, pyInt b with
      | some start, some stop =>
        if start ≤ 0 ∨ stop ≤ 0 ∨ start > stop then none else some (start, stop)
      | _, _ => none) =
      (match pyInt a, pyInt b with
      | some start, some stop =>
        if 0 < start ∧ 0 < stop ∧ start ≤ stop then some (start, stop) else none
      | _, _ => none)
    rcases pyInt a with _ | s
    · rfl
    rcases pyInt b with _ | e
    · rfl
    show (if s ≤ 0 ∨ e ≤ 0 ∨ s > e then none else some (s, e)) =
      (if 0 < s ∧ 0 < e ∧ s ≤ e then some (s, e) else none)
    by_cases hc : s ≤ 0 ∨ e ≤ 0 ∨ s > e
    · rw [if_pos hc, if_neg (by omega)]
    · rw [if_neg hc, if_pos (by omega)]
  · rfl

theorem splitFirstOn_none : ∀ {c : Char} {s : Str},
    (splitFirstOn c s).2 = none → (splitFirstOn c s).1 = s := by
  intro c s
  induction s with
  | nil => intro _; rfl
  | cons x xs ih =>
    unfold splitFirstOn
    split_ifs with h1
    · intro h; simp at h
    · intro h
      simp only at h ⊢
      rw [ih h]

theorem loadPatterns_foldl :
    ∀ (lines acc : List Str),
      (lines.foldl
        (fun patterns rawLine =>
          let line := pyStrip rawLine
          if line = [] ∨ line.head? = some '#' then patterns
          else
            let line2 := if line.head? = some '/' then line.drop 1 else line
            patterns ++ [line2])
        acc) =
      acc ++ lines.filterMap (fun rawLine =>
        let line := pyStrip rawLine
        if line = [] ∨ line.head? = some '#' then none
        else some (if line.head? = some '/' then line.drop 1 else line)) := by
  intro lines
  induction lines with
  | nil => intro acc; simp
  | cons rawLine rest ih =>
    intro acc
    rw [List.foldl_cons, List.filterMap_cons]
    by_cases h : pyStrip rawLine = [] ∨ (pyStrip rawLine).head? = some '#'
    · simp only [if_pos h]
      exact ih acc
    · simp only [if_neg h]
      rw [ih]
      simp

theorem parseQuery_split_none {query q' base : Str}
    (hq' : q' = (if forceIncludeToken.isPrefixOf query then
      query.drop forceIncludeToken.length else query))
    (h : splitFirstOn ':' q' = (base, none)) :
    parseQuery query = ⟨forceIncludeToken.isPrefixOf query, base, []⟩ := by
  subst hq'
  simp only [parseQuery, h]

theorem parseQuery_split_some {query q' base suffixPart : Str}
    (hq' : q' = (if forceIncludeToken.isPrefixOf query then
      query.drop forceIncludeToken.length else query))
    (h : splitFirstOn ':' q' = (base, some suffixPart)) :
    parseQuery query =
      (if parseLineRanges suffixPart ≠ [] then
        ⟨forceIncludeToken.isPrefixOf query, base, parseLineRanges suffixPart⟩
      else ⟨forceIncludeToken.isPrefixOf query, q', []⟩) := by
  subst hq'
  simp only [parseQuery, h]

/-! ## Claim theorems -/

/-- Claim C1: a path that matches at least one force-include pattern, by
exact relative-path equality, glob against the relative path, glob against
the basename, or glob against any path component, is never reported as
ignored by `is_ignored`, whatever the explicit-name and substring ignore
rules say. -/
theorem c1_force_include_never_ignored (m : IgnoreManager) (p rp : Str)
    (hrel : relpath p m.rootPath = some rp)
    (hmatch : m.forceIncludePatterns.any (fun pattern =>
      normpath pattern = normpath rp ||
      fnmatchB (normpath rp) (normpath pattern) ||
      fnmatchB (basename p) (normpath pattern) ||
      (splitOnChar '/' (normpath rp)).any
        (fun part => fnmatchB part (normpath pattern))) = true) :
    isIgnored m p = false := by
  have hforce : isExplicitlyForceIncluded m p = true := by
    unfold isExplicitlyForceIncluded
    rw [hrel]
    exact hmatch
  simp [isIgnored, hforce]

/-- Witness for C1: `node_modules/lib.js` is force-included by the exact
relative-path rule, so it is not ignored even though `node_modules` is an
explicit ignore name. -/
theorem c1_witness :
    isIgnored
      ⟨str "/r", [str "node_modules"], [], [str "node_modules/lib.js"]⟩
      (str "/r/node_modules/lib.js") = false :=
  c1_force_include_never_ignored _ _ (str "node_modules/lib.js")
    (by decide) (by decide)

/-- Claim C10: a path whose relative form against the root cannot be
computed is ignored even when a force-include pattern matches everything:
force-include matching itself bails out without a relative path, and
`is_ignored` then answers true. -/
theorem c10_out_of_tree_never_rescued (m : IgnoreManager) (p : Str)
    (hrel : relpath p m.rootPath = none) :
    isExplicitlyForceIncluded m p = false ∧ isIgnored m p = true := by
  have h1 : isExplicitlyForceIncluded m p = false := by
    unfold isExplicitlyForceIncluded
    rw [hrel]
  refine ⟨h1, ?_⟩
  simp [isIgnored, h1, hrel]

/-- Witness for C10: the empty path (the one input on which `os.path.relpath`
raises) is ignored despite a force-include pattern that matches every
name. -/
theorem c10_witness :
    isExplicitlyForceIncluded ⟨str "/r", [], [], [str "*"]⟩ (str "") = false ∧
    isIgnored ⟨str "/r", [], [], [str "*"]⟩ (str "") = true :=
  c10_out_of_tree_never_rescued ⟨str "/r", [], [], [str "*"]⟩ (str "")
    (by decide)

/-- Claim C3: `_parse_line_ranges` keeps exactly the valid
start,end segments, positive and ordered, and drops the invalid ones, and
when every segment of a colon-suffixed query is invalid the query falls
back to whole-path interpretation: the original remainder, colons
included, becomes the base pattern. -/
theorem c3_segment_validation :
    (∀ s : Str,
      parseLineRanges s = (splitOnChar ':' s).filterMap specSegment) ∧
    (∀ query q' base suffixPart : Str,
      q' = (if forceIncludeToken.isPrefixOf query then
        query.drop forceIncludeToken.length else query) →
      splitFirstOn ':' q' = (base, some suffixPart) →
      parseLineRanges suffixPart = [] →
      parseQuery query = ⟨forceIncludeToken.isPrefixOf query, q', []⟩) := by
  constructor
  · intro s
    unfold parseLineRanges
    by_cases hs : s = []
    · subst hs; rfl
    · rw [if_neg hs]
      have hfun : parseSegment = specSegment := funext parseSegment_eq_spec
      rw [hfun]
  · intro query q' base suffixPart hq' hsplit hfail
    rw [parseQuery_split_some hq' hsplit, hfail]
    simp

/-- Witness for C3: a mixed suffix keeps only its valid segment, and a
query whose whole suffix is invalid keeps its colon in the base pattern. -/
theorem c3_witness :
    parseLineRanges (str "1,5:abc") = [((1 : Int), (5 : Int))] ∧
    parseQuery (str "a.py:abc") = ⟨false, str "a.py:abc", []⟩ :=
  ⟨(c3_segment_validation.1 (str "1,5:abc")).trans (by decide),
   (c3_segment_validation.2 (str "a.py:abc") (str "a.py:abc") (str "a.py")
     (str "abc") (by decide) (by decide) (by decide)).trans (by decide)⟩

/-- Counterexample to claim C4: in the query a.py:1,5:abc one segment
fails to parse, yet the line-range interpretation is not discarded: the
valid segment (1,5) is kept and the base pattern is a.py, not the
original remainder a.py:1,5:abc. -/
theorem c4_counterexample :
    parseQuery (str "a.py:1,5:abc") =
      ⟨false, str "a.py", [((1 : Int), (5 : Int))]⟩ ∧
    str "a.py" ≠ str "a.py:1,5:abc" := by
  constructor
  · decide
  · decide

/-- Claim C4 as amended: the line-range interpretation is discarded, with
the untouched remainder (colons included) used as the base pattern, exactly
when every colon-separated segment fails to parse; when at least one
segment is valid, the valid segments are kept and the part before the
first colon becomes the base. -/
theorem c4_all_segments_fallback (query q' base suffixPart : Str)
    (hq' : q' = (if forceIncludeToken.isPrefixOf query then
      query.drop forceIncludeToken.length else query))
    (hsplit : splitFirstOn ':' q' = (base, some suffixPart)) :
    (parseLineRanges suffixPart = [] →
      parseQuery query = ⟨forceIncludeToken.isPrefixOf query, q', []⟩) ∧
    (parseLineRanges suffixPart ≠ [] →
      parseQuery query =
        ⟨forceIncludeToken.isPrefixOf query, base, parseLineRanges suffixPart⟩) := by
  constructor
  · intro hfail
    rw [parseQuery_split_some hq' hsplit, hfail]
    simp
  · intro hok
    rw [parseQuery_split_some hq' hsplit, if_pos hok]

/-- Witness for C4 as amended: one valid segment keeps the range
interpretation, a fully invalid suffix falls back to the whole remainder. -/
theorem c4_witness :
    parseQuery (str "a.py:1,5:abc") =
      ⟨false, str "a.py", [((1 : Int), (5 : Int))]⟩ ∧
    parseQuery (str "b:x") = ⟨false, str "b:x", []⟩ :=
  ⟨((c4_all_segments_fallback (str "a.py:1,5:abc") (str "a.py:1,5:abc")
      (str "a.py") (str "1,5:abc") (by decide) (by decide)).2
      (by decide)).trans (by decide),
   (c4_all_segments_fallback (str "b:x") (str "b:x") (str "b") (str "x")
      (by decide) (by decide)).1 (by decide)⟩

/-- Counterexample to claim C2: with max_depth = 1 the traversal prunes
every directory whose own depth reaches 1 before listing its files, so the
file `/r/a/file.txt` (in the depth-1 directory `a`) is not found at all,
while the claim says a file at depth 1 is included. -/
theorem c2_counterexample :
    findMatches depthTree (str "file.txt") (str "/r") (fun _ => false) 1 = [] := by
  decide

/-- Claim C2 as amended: with max_depth = 1 a root-level traversal returns
only files directly under the root, excluding both `/r/a/file.txt` and
`/r/a/b/file.txt`; a max_depth of 2 is needed for `/r/a/file.txt` to be
included, and `/r/a/b/file.txt` is then still excluded. -/
theorem c2_depth_pruning :
    findMatches depthTree (str "*.txt") (str "/r") (fun _ => false) 1 =
      [⟨str "/r/top.txt", []⟩] ∧
    findMatches depthTree (str "file.txt") (str "/r") (fun _ => false) 1 = [] ∧
    findMatches depthTree (str "file.txt") (str "/r") (fun _ => false) 2 =
      [⟨str "/r/a/file.txt", []⟩] := by
  refine ⟨by decide, by decide, by decide⟩

/-- Counterexample to claim C5: a path matched by a single query keeps its
parsed ranges in query order, so the ranges of file.py:10,20:5,15 are
stored descending and undeduplicated, not as an ascending-sorted set. -/
theorem c5_counterexample :
    findMatches flatTree (str "file.py:10,20:5,15") (str "/r")
      (fun _ => false) 5 =
      [⟨str "/r/file.py", [((10 : Int), (20 : Int)), (5, 15)]⟩] ∧
    [((10 : Int), (20 : Int)), ((5 : Int), (15 : Int))] ≠
      sortDedupRanges [((10 : Int), (20 : Int)), (5, 15)] := by
  refine ⟨by decide, by decide⟩

/-- Claim C5 as amended: whenever range lists are combined the result is
the ascending-sorted list of the distinct pairs, overlapping ranges are
never merged into one another (every distinct pair survives), and
per-query match lists are sorted ascending by path; but a path matched by
a single source keeps its ranges in query order, which need not be sorted
or deduplicated.  The specification scenario file.py:5,15:10,20 indeed
yields both overlapping ranges distinctly. -/
theorem c5_range_invariants :
    (∀ (l : List (Int × Int)) (x : Int × Int),
      x ∈ sortDedupRanges l ↔ x ∈ l) ∧
    (∀ l : List (Int × Int),
      (sortDedupRanges l).Pairwise (fun a b => rangeLt a b = true)) ∧
    (∀ (fs : EntryList) (q root : Str) (ign : Str → Bool) (d : Nat),
      (findMatches fs q root ign d).Pairwise
        (fun a b => strLt b.path a.path = false)) ∧
    findMatches flatTree (str "file.py:5,15:10,20") (str "/r")
      (fun _ => false) 5 =
      [⟨str "/r/file.py", [((5 : Int), (15 : Int)), (10, 20)]⟩] :=
  ⟨fun _ _ => mem_sortDedupRanges,
   fun _ => pairwise_sortDedupRanges,
   fun fs q root ign d => findMatches_sorted fs q root ign d,
   by decide⟩

/-- Counterexample to claim C6: consolidating a whole-file request (empty
range list) for a.py with a later sub-range request yields exactly the
sub-range entry, identical to what the sub-range query alone produces, so
the whole-file request is not kept. -/
theorem c6_counterexample :
    consolidateQueryResults 6
        [findMatches flatTree (str "a.py") (str "/r") (fun _ => false) 5,
         findMatches flatTree (str "a.py:5,15") (str "/r") (fun _ => false) 5] =
      some [⟨str "/r/a.py", [((5 : Int), (15 : Int))]⟩] ∧
    consolidateQueryResults 6
        [findMatches flatTree (str "a.py:5,15") (str "/r") (fun _ => false) 5] =
      some [⟨str "/r/a.py", [((5 : Int), (15 : Int))]⟩] := by
  refine ⟨by decide, by decide⟩

/-- Claim C6 as amended: merging for a path is set union of the literal
(start, end) pairs: an empty (whole-file) list contributes no pairs, so a
whole-file request combined with a sub-range request consolidates to just
the canonicalized sub-range list in either order of arrival, only literal
duplicate pairs are deduplicated, and a non-empty range list never
implicitly collapses into the empty one. -/
theorem c6_union_merge (st : List RawMatch) (m : RawMatch)
    (r : List (Int × Int)) (hlook : lookupRanges st m.path = some r) :
    (r = [] →
      lookupRanges (consolidateStep st m) m.path =
        some (sortDedupRanges m.lineRanges)) ∧
    (m.lineRanges = [] →
      lookupRanges (consolidateStep st m) m.path = some (sortDedupRanges r)) ∧
    (∀ x, x ∈ sortDedupRanges (r ++ m.lineRanges) ↔
      x ∈ r ∨ x ∈ m.lineRanges) := by
  have hstep := lookupRanges_consolidateStep st m m.path
  rw [if_pos rfl, hlook] at hstep
  refine ⟨?_, ?_, ?_⟩
  · intro hr
    rw [hstep, hr]
    rfl
  · intro hm
    rw [hstep, hm]
    show some (sortDedupRanges (r ++ [])) = some (sortDedupRanges r)
    rw [List.append_nil]
  · intro x
    rw [mem_sortDedupRanges, List.mem_append]

/-- Witness for C6 as amended: after a whole-file entry for a.py, merging
the sub-range (5,15) leaves exactly that sub-range. -/
theorem c6_witness :
    lookupRanges
      (consolidateStep [⟨str "/r/a.py", []⟩]
        ⟨str "/r/a.py", [((5 : Int), (15 : Int))]⟩)
      (str "/r/a.py") = some [((5 : Int), (15 : Int))] := by
  have h := (c6_union_merge [⟨str "/r/a.py", []⟩]
    ⟨str "/r/a.py", [((5 : Int), (15 : Int))]⟩ [] (by decide)).1 rfl
  exact h.trans (by decide)

/-- Claim C7: against a fixed filesystem, ignore policy and configuration,
consolidating the per-query results of a list of queries is invariant
under reordering of the queries: the run aborts on the match cap in one
order exactly when it does in the other, and otherwise every path receives
the same consolidated range list. -/
theorem c7_consolidation_commutative (fs : EntryList) (root : Str)
    (ign : Str → Bool) (maxDepth cap : Nat) {qs₁ qs₂ : List Str}
    (hperm : qs₁.Perm qs₂) :
    ((consolidateQueryResults cap
        (qs₁.map (fun q => findMatches fs q root ign maxDepth))).isSome =
      (consolidateQueryResults cap
        (qs₂.map (fun q => findMatches fs q root ign maxDepth))).isSome) ∧
    ∀ p, lookupResult (consolidateQueryResults cap
        (qs₁.map (fun q => findMatches fs q root ign maxDepth))) p =
      lookupResult (consolidateQueryResults cap
        (qs₂.map (fun q => findMatches fs q root ign maxDepth))) p :=
  consolidateQueryResults_perm cap
    (hperm.map (fun q => findMatches fs q root ign maxDepth))

/-- Witness for C7: the two-query example of the specification, resolved in
both orders against a tree containing a.py, gives a.py the same ranges,
namely the ascending pair list (1,5), (10,20). -/
theorem c7_witness :
    lookupResult (consolidateQueryResults 6
      ([str "a.py:1,5", str "a.py:10,20"].map
        (fun q => findMatches flatTree q (str "/r") (fun _ => false) 5)))
      (str "/r/a.py") =
    lookupResult (consolidateQueryResults 6
      ([str "a.py:10,20", str "a.py:1,5"].map
        (fun q => findMatches flatTree q (str "/r") (fun _ => false) 5)))
      (str "/r/a.py") ∧
    lookupResult (consolidateQueryResults 6
      ([str "a.py:1,5", str "a.py:10,20"].map
        (fun q => findMatches flatTree q (str "/r") (fun _ => false) 5)))
      (str "/r/a.py") = some [((1 : Int), (5 : Int)), (10, 20)] :=
  ⟨(c7_consolidation_commutative flatTree (str "/r") (fun _ => false) 5 6
      (List.Perm.swap (str "a.py:10,20") (str "a.py:1,5") [])).2
      (str "/r/a.py"),
   by decide⟩

/-- Counterexample to claim C8: the pattern /foo from an ignore file is
loaded with its leading separator stripped, and the stored rule then
matches the same-named entry `/r/bar/foo` deeper in the tree, so the rule
is not anchored to the root. -/
theorem c8_counterexample :
    loadPatternsFromFile (some [str "/foo"]) = [str "foo"] ∧
    isIgnored
      ⟨str "/r", loadPatternsFromFile (some [str "/foo"]), [], []⟩
      (str "/r/bar/foo") = true := by
  refine ⟨by decide, by decide⟩

/-- Claim C8 as amended: comment lines and blank lines contribute no
patterns and a leading path separator is stripped, after which the rule
behaves like any other explicit-name rule and is not anchored: the loaded
form of /foo also ignores the deeper same-named entry `/r/bar/foo`. -/
theorem c8_load_semantics :
    (∀ lines : List Str,
      loadPatternsFromFile (some lines) =
        lines.filterMap (fun rawLine =>
          let line := pyStrip rawLine
          if line = [] ∨ line.head? = some '#' then none
          else some (if line.head? = some '/' then line.drop 1 else line))) ∧
    loadPatternsFromFile none = [] ∧
    isIgnored
      ⟨str "/r",
        loadPatternsFromFile (some [str "# note", str "   ", str "/foo"]),
        [], []⟩
      (str "/r/bar/foo") = true := by
  refine ⟨?_, rfl, by decide⟩
  intro lines
  exact loadPatterns_foldl lines []

/-- Counterexample to claim C9: for the force query force:a.py:abc the
pattern registered with the ignore policy is a.py, while the base pattern
used for matching is the whole remainder a.py:abc, so the two derived
patterns differ. -/
theorem c9_counterexample :
    cliForcePatterns [str "force:a.py:abc"] = [str "a.py"] ∧
    (parseQuery (str "force:a.py:abc")).base = str "a.py:abc" ∧
    str "a.py" ≠ str "a.py:abc" := by
  refine ⟨by decide, by decide, by decide⟩

/-- Claim C9 as amended: the registered force-include pattern is always the
stripped query up to the first colon, and it coincides with the base
pattern used for matching whenever the stripped query has no colon or its
colon suffix parses as line ranges; when range parsing fails entirely the
base pattern is instead the whole remainder, colons included. -/
theorem c9_patterns_agree (query q' : Str)
    (hforce : forceIncludeToken.isPrefixOf query = true)
    (hq' : q' = query.drop forceIncludeToken.length) :
    (cliForcePatterns [query] = [(splitFirstOn ':' q').1]) ∧
    ((splitFirstOn ':' q').2 = none →
      cliForcePatterns [query] = [(parseQuery query).base]) ∧
    (∀ base suffixPart, splitFirstOn ':' q' = (base, some suffixPart) →
      parseLineRanges suffixPart ≠ [] →
      cliForcePatterns [query] = [(parseQuery query).base]) := by
  have hreg : cliForcePatterns [query] = [(splitFirstOn ':' q').1] := by
    have hforce2 : forceIncludeToken <+: query := by
      rw [← List.isPrefixOf_iff_prefix]
      exact hforce
    subst hq'
    simp [cliForcePatterns, hforce2]
  have h1 : q' = (if forceIncludeToken.isPrefixOf query then
      query.drop forceIncludeToken.length else query) := by
    rw [hq', hforce]
    simp
  refine ⟨hreg, ?_, ?_⟩
  · intro hnone
    rcases hsp : splitFirstOn ':' q' with ⟨b, o⟩
    rw [hsp] at hnone
    simp only at hnone
    have h2 : splitFirstOn ':' q' = (b, none) := by rw [hsp, hnone]
    have hpq := parseQuery_split_none h1 h2
    rw [hreg, hpq, hsp]
  · intro base suffixPart hsplit hok
    have hpq : parseQuery query =
        ⟨forceIncludeToken.isPrefixOf query, base, parseLineRanges suffixPart⟩ := by
      have hsome := parseQuery_split_some h1 hsplit
      rw [hsome, if_pos hok]
    rw [hreg, hpq, hsplit]

/-- Witness for C9 as amended: for force:a.py:1,5 the registered pattern
and the matching base pattern are both a.py. -/
theorem c9_witness :
    cliForcePatterns [str "force:a.py:1,5"] =
      [(parseQuery (str "force:a.py:1,5")).base] ∧
    (parseQuery (str "force:a.py:1,5")).base = str "a.py" :=
  ⟨(c9_patterns_agree (str "force:a.py:1,5") (str "a.py:1,5")
      (by decide) (by decide)).2.2 (str "a.py") (str "1,5")
      (by decide) (by decide),
   by decide⟩

end Ctxctx
